import Mathlib

/-!
Verification of the NBFT consensus core (hash ring, partitioner, node actor,
coordinator) against its natural-language specification.  The Python sources
are shallowly embedded: pure functions become Lean functions, stream reads
become explicit list parameters holding the stream contents observed at read
time, and stream writes become explicit lists of (key, record) pairs.
Machine integers are modelled as `Nat` (all quantities involved are
non-negative and no overflow is reachable); timestamps are opaque `Nat`
values.
-/

set_option maxRecDepth 40000

/-! ## Hash ring (`hash_ring.py`) -/

/-- One step of the reflected CRC-32 shift loop (polynomial `0xEDB88320`). -/
def crc32Step (crc : Nat) : Nat :=
  if crc % 2 = 1 then (crc / 2) ^^^ 0xEDB88320 else crc / 2

/-- Fold one byte into a CRC-32 accumulator: xor the byte in, then shift
eight times.  Mirrors the standard `zlib.crc32` bit-level algorithm. -/
def crc32Update (crc b : Nat) : Nat := crc32Step^[8] (crc ^^^ b)

/-- CRC-32 of a byte list, as computed by `zlib.crc32` (initial value
`0xFFFFFFFF`, final xor `0xFFFFFFFF`).  All intermediate values stay below
`2 ^ 32`, so no masking is needed. -/
def crc32 (bs : List Nat) : Nat :=
  (bs.foldl crc32Update 0xFFFFFFFF) ^^^ 0xFFFFFFFF

/-- UTF-8 encoding of a single character, as a list of byte values. -/
def charUtf8 (c : Char) : List Nat :=
  let n := c.toNat
  if n < 0x80 then [n]
  else if n < 0x800 then [0xC0 ||| (n >>> 6), 0x80 ||| (n &&& 0x3F)]
  else if n < 0x10000 then
    [0xE0 ||| (n >>> 12), 0x80 ||| ((n >>> 6) &&& 0x3F), 0x80 ||| (n &&& 0x3F)]
  else
    [0xF0 ||| (n >>> 18), 0x80 ||| ((n >>> 12) &&& 0x3F),
     0x80 ||| ((n >>> 6) &&& 0x3F), 0x80 ||| (n &&& 0x3F)]

/-- UTF-8 byte serialization of a string (`value.encode()` in Python). -/
def strBytes (s : String) : List Nat := (s.data.map charUtf8).flatten

/-- `h32` of `hash_ring.py`: `zlib.crc32(value.encode()) & 0xFFFFFFFF`. -/
def h32 (s : String) : Nat := crc32 (strBytes s)

/-- Ordering used by Python `sorted` on `(hash, id)` pairs: lexicographic on
the pair, with string comparison by code points. -/
def pairLe (a b : Nat × String) : Bool :=
  decide (a.1 < b.1) || (a.1 == b.1 && decide (a.2 ≤ b.2))

/-- `HashRing.__init__`: the sorted list `self.nodes` of `(h32 id, id)`
pairs. -/
def ringNodes (ids : List String) : List (Nat × String) :=
  (ids.map (fun s => (h32 s, s))).mergeSort pairLe

/-- `HashRing.next`: `bisect_right` on the sorted hash list finds the first
pair whose hash is strictly greater than `h32 key`; index `len` wraps to
`0`.  Returns `none` only on an empty ring (where the Python code would
raise an index error). -/
def HashRing.next (ids : List String) (key : String) : Option String :=
  let hv := h32 key
  let ns := ringNodes ids
  match ns.find? (fun p => decide (hv < p.1)) with
  | some p => some p.2
  | none => ns.head?.map (fun p => p.2)

/-- The ring members in sorted ring order (second components of
`self.nodes`). -/
def ringOrder (ids : List String) : List String :=
  (ringNodes ids).map (fun p => p.2)

/-- Start index of `clockwise_walk`: `bisect_right(self.hashes, h32 start)`.
`List.findIdx` returns the length when no pair qualifies, which the
generator's wrap-around reduces modulo the ring size. -/
def walkStart (ids : List String) (startKey : String) : Nat :=
  (ringNodes ids).findIdx (fun p => decide (h32 startKey < p.1))

/-- `clockwise_walk` as a function from step count to yielded id: the
generator yields `self.nodes[(start + k) % len]` at step `k`. -/
def ringWalk (ids : List String) (startKey : String) (k : Nat) : String :=
  let ns := ringOrder ids
  ns.getD ((walkStart ids startKey + k) % ns.length) ""

/-! ## Configuration (`config.py`) -/

/-- `NBFTConfig` of `config.py` (the derived Redis URL is out of scope).
`n` and `m` are positive in every use; the derived quantities below agree
with the Python integer arithmetic whenever `1 ≤ m`. -/
structure NBFTConfig where
  n : Nat
  m : Nat
  view_number : Nat
  previous_hash : String
  master_ip : String
deriving DecidableEq, Repr

/-- `E = (m - 1) // 3`, the per-group Byzantine tolerance. -/
def NBFTConfig.E (c : NBFTConfig) : Nat := (c.m - 1) / 3

/-- `R = ceil(n / m)`, the group count. -/
def NBFTConfig.R (c : NBFTConfig) : Nat := (c.n + c.m - 1) / c.m

/-- `omega = max(0, (R - 1) // 3)`, the inter-group tolerance. -/
def NBFTConfig.omega (c : NBFTConfig) : Nat := max 0 ((c.R - 1) / 3)

/-! ## Partitioner (`grouping.py`) -/

/-- The `while nid in assigned: nid = next(walk)` skip loop, with explicit
fuel.  Returns the first walk element not yet assigned together with the
position after it; `none` models the divergence of the Python loop when
every element of the fuel window is already assigned. -/
def findUnassigned (walk : Nat → String) (assigned : List String) :
    Nat → Nat → Option (String × Nat)
  | _, 0 => none
  | pos, fuel + 1 =>
    let nid := walk pos
    if nid ∈ assigned then findUnassigned walk assigned (pos + 1) fuel
    else some (nid, pos + 1)

/-- The inner `for _ in range(m)` loop of `assign_groups`: fill one group,
appending fresh walk elements and stopping early once `len(assigned)`
reaches `n` (the check runs after each append, as in the source).  Returns
the group, the updated assigned list and the walk position. -/
def fillGroup (walk : Nat → String) (fuel n : Nat) :
    Nat → List String → Nat → Option (List String × List String × Nat)
  | 0, assigned, pos => some ([], assigned, pos)
  | slots + 1, assigned, pos =>
    match findUnassigned walk assigned pos fuel with
    | none => none
    | some (nid, pos1) =>
      if n ≤ assigned.length + 1 then some ([nid], assigned ++ [nid], pos1)
      else
        match fillGroup walk fuel n slots (assigned ++ [nid]) pos1 with
        | none => none
        | some (g, a2, pos2) => some (nid :: g, a2, pos2)

/-- The outer `for i in range(cfg.R)` loop of `assign_groups`. -/
def fillGroups (walk : Nat → String) (fuel n m : Nat) :
    Nat → List String → Nat → Option (List (List String) × List String × Nat)
  | 0, assigned, pos => some ([], assigned, pos)
  | r + 1, assigned, pos =>
    match fillGroup walk fuel n m assigned pos with
    | none => none
    | some (g, a1, pos1) =>
      match fillGroups walk fuel n m r a1 pos1 with
      | none => none
      | some (gs, a2, pos2) => some (g :: gs, a2, pos2)

/-- `assign_groups(node_ids, cfg)`: walk the ring from the seeded start key,
fill `cfg.R` groups of up to `cfg.m` fresh ids each, and return the
non-empty groups in construction order.  The fuel for the skip loop is the
ring size; `none` models divergence of the source's skip loop. -/
def assign_groups (ids : List String) (cfg : NBFTConfig) :
    Option (List (List String)) :=
  let startKey := toString cfg.view_number ++ "_" ++ toString ids.length
  let walk := ringWalk ids startKey
  match fillGroups walk ids.length ids.length cfg.m cfg.R [] 0 with
  | none => none
  | some (gs, _, _) => some (gs.filter (fun g => !g.isEmpty))

/-- `pick_representative(group, cfg, gid)`. -/
def pick_representative (group : List String) (cfg : NBFTConfig)
    (gid : Nat) : Option String :=
  HashRing.next group
    (cfg.master_ip ++ "|" ++ toString cfg.view_number ++ "|" ++ toString gid)

/-! ## Message schema (`messages.py`)

Each Python dataclass gives its `ts` field the default `time.time()`, an
expression evaluated once, when the class body is executed at import time.
`loadMessages` models the import of `messages.py`: `clock` maps the four
successive default-evaluation instants to clock readings, and the resulting
module fixes one default timestamp per message type. -/

/-- The four per-class default timestamps fixed when `messages.py` is
imported. -/
structure MessagesModule where
  prePrepare1Ts : Nat
  inPrepareTs : Nat
  repAggregateTs : Nat
  alertTs : Nat
deriving DecidableEq, Repr

/-- Importing `messages.py`: the four dataclass defaults are evaluated once
each, in class-definition order. -/
def loadMessages (clock : Nat → Nat) : MessagesModule :=
  { prePrepare1Ts := clock 0, inPrepareTs := clock 1,
    repAggregateTs := clock 2, alertTs := clock 3 }

/-- `InPrepare` record. -/
structure InPrepMsg where
  rid : Nat
  group_id : Nat
  node_id : String
  value : String
  sig : String
  ts : Nat
deriving DecidableEq, Repr

/-- `RepAggregate` record. -/
structure RepAggMsg where
  rid : Nat
  group_id : Nat
  rep_id : String
  value : String
  valid_sigs : Nat
  sigs_json : String
  ts : Nat
deriving DecidableEq, Repr

/-- `Alert` record. -/
structure AlertMsg where
  rid : Nat
  group_id : Nat
  node_id : String
  reason : String
  evidence : String
  ts : Nat
deriving DecidableEq, Repr

/-- `PrePrepare1` record. -/
structure PrePrepMsg where
  rid : Nat
  proposer : String
  value : String
  ts : Nat
deriving DecidableEq, Repr

/-- Constructing `PrePrepare1(rid, proposer, value)` at wall-clock instant
`now` without an explicit `ts` argument: the dataclass default (fixed at
import) is used, not `now`. -/
def mkPrePrepare1At (mod : MessagesModule) (now : Nat) (rid : Nat)
    (proposer value : String) : PrePrepMsg :=
  let _ := now
  ⟨rid, proposer, value, mod.prePrepare1Ts⟩

/-- Constructing `InPrepare(...)` at instant `now` without an explicit `ts`:
the import-time default is used. -/
def mkInPrepareAt (mod : MessagesModule) (now : Nat) (rid gid : Nat)
    (nid value sig : String) : InPrepMsg :=
  let _ := now
  ⟨rid, gid, nid, value, sig, mod.inPrepareTs⟩

/-- Constructing `RepAggregate(...)` at instant `now` without an explicit
`ts`: the import-time default is used. -/
def mkRepAggregateAt (mod : MessagesModule) (now : Nat) (rid gid : Nat)
    (rep value : String) (vs : Nat) (sj : String) : RepAggMsg :=
  let _ := now
  ⟨rid, gid, rep, value, vs, sj, mod.repAggregateTs⟩

/-- Constructing `Alert(...)` at instant `now` without an explicit `ts`:
the import-time default is used. -/
def mkAlertAt (mod : MessagesModule) (now : Nat) (rid gid : Nat)
    (nid reason evidence : String) : AlertMsg :=
  let _ := now
  ⟨rid, gid, nid, reason, evidence, mod.alertTs⟩

/-! ## Node actor (`node.py`) -/

/-- Per-node state from `Node.__init__`. -/
structure NodeActor where
  id : String
  group_id : Nat
  rep_id : String
  honest : Bool
deriving DecidableEq, Repr

/-- `Node.sign`: the deterministic signature `sig:{id}:{rid}`. -/
def NodeActor.sign (nd : NodeActor) (rid : Nat) : String :=
  "sig:" ++ nd.id ++ ":" ++ toString rid

/-- `Node.in_prepare1(rid, value)`: sign and append one `InPrepare` record
to `nbft:inprep1:{group_id}`.  The body of the source consults neither
`self.honest` nor any fabricated payload: the proposed value is forwarded
unchanged for every node. -/
def in_prepare1 (mod : MessagesModule) (nd : NodeActor) (rid : Nat)
    (value : String) : String × InPrepMsg :=
  ("nbft:inprep1:" ++ toString nd.group_id,
    ⟨rid, nd.group_id, nd.id, value, nd.sign rid, mod.inPrepareTs⟩)

/-- The collection loop of `in_prepare2_collect` over a fixed stream
content: each `xread` call starts from id `0-0` with `count=50`, so only the
first 50 records of the stream are ever visible; every visible record is
processed (the `len(seen) < m` bound is only checked between batches, never
inside one).  Records with a foreign `group_id` are dropped and node ids are
deduplicated first-seen.  `records` is the content of
`nbft:inprep1:{gid}` in append order as observed at aggregation time. -/
def collectStep (gid : Nat) (seen : List InPrepMsg) (r : InPrepMsg) :
    List InPrepMsg :=
  if r.group_id ≠ gid then seen
  else if seen.any (fun s => s.node_id == r.node_id) then seen
  else seen ++ [r]

/-- The whole collection loop over a fixed stream content (see
`collectStep`). -/
def collectSeen (records : List InPrepMsg) (gid : Nat) : List InPrepMsg :=
  (records.take 50).foldl (collectStep gid) []

/-- The Python set `values = {fields[b"value"] for ...}`, represented as a
duplicate-free list.  Python set iteration order is unspecified; only the
cases the theorems use (empty set, singleton set, membership) are
order-independent. -/
def seenValues (seen : List InPrepMsg) : List String :=
  (seen.map (fun r => r.value)).dedup

/-- `consistent = len(values) == 1`. -/
def aggConsistent (seen : List InPrepMsg) : Bool :=
  (seenValues seen).length == 1

/-- `value = list(values)[0] if values else "⊥"`. -/
def aggValue (seen : List InPrepMsg) : String :=
  (seenValues seen).headD "⊥"

/-- `valid_sigs = len(seen) if consistent else 0`. -/
def aggValidSigs (seen : List InPrepMsg) : Nat :=
  if aggConsistent seen then seen.length else 0

/-- `json.dumps(list(seen.keys()))`. -/
def sigsJson (seen : List InPrepMsg) : String :=
  "[" ++ String.intercalate ", "
    (seen.map (fun r => "\"" ++ r.node_id ++ "\"")) ++ "]"

/-- The `RepAggregate` published by `in_prepare2_collect` to
`nbft:inprep2:{gid}`, as a function of the observed stream content. -/
def in_prepare2_publish (mod : MessagesModule) (rid gid : Nat)
    (repId : String) (records : List InPrepMsg) : RepAggMsg :=
  let seen := collectSeen records gid
  ⟨rid, gid, repId, aggValue seen, aggValidSigs seen, sigsJson seen,
    mod.repAggregateTs⟩

/-- The alert reasons computed by `in_prepare2_collect`, in source order:
`timeout` when the deadline elapsed, `mismatch` when the value set is not a
singleton, and `weak_sig` when `valid_sigs <= 2 * E + 1` (note the
non-strict inequality in the source). -/
def alertReasons (timedOut : Bool) (E : Nat)
    (seen : List InPrepMsg) : List String :=
  (if timedOut then ["timeout"] else []) ++
  (if aggConsistent seen then [] else ["mismatch"]) ++
  (if aggValidSigs seen ≤ 2 * E + 1 then ["weak_sig"] else [])

/-- The stream key the representative appends alerts to
(`node.py`, `await self.r.xadd(f"nbft:alerts:{rid}", ...)`). -/
def alertAppendKey (rid : Nat) : String := "nbft:alerts:" ++ toString rid

/-- The per-group alert writes of `in_prepare2_collect`: one `Alert` per
computed reason, every one appended under `alertAppendKey rid`. -/
def repAlertWrites (mod : MessagesModule) (rid gid : Nat) (nid : String)
    (reasons : List String) (vs : Nat) : List (String × AlertMsg) :=
  reasons.map (fun reason =>
    (alertAppendKey rid,
      ⟨rid, gid, nid, reason, "valid_sigs=" ++ toString vs, mod.alertTs⟩))

/-! ## Coordinator (`coordinator.py`) -/

/-- The stream key the coordinator reads alerts from
(`coordinator.py`, `await self.r.xrange(f"nbft:alerts:{rid}:{gid}", ...)`). -/
def alertsReadKey (rid gid : Nat) : String :=
  "nbft:alerts:" ++ toString rid ++ ":" ++ toString gid

/-- A bus holding, for every stream key, the list of alert records appended
to it, in append order. -/
def emptyAlertBus : String → List AlertMsg := fun _ => []

/-- Append a list of (key, alert) writes to a bus. -/
def busAppendAlerts (bus : String → List AlertMsg)
    (ws : List (String × AlertMsg)) : String → List AlertMsg :=
  ws.foldl (fun b w => fun k => if k = w.1 then b k ++ [w.2] else b k) bus

/-- The exclusion sweep of `run_round`: a group `gid` is excluded when the
stream `nbft:alerts:{rid}:{gid}` holds at least one record whose `group_id`
field equals `gid`. -/
def coordExclude (bus : String → List AlertMsg) (rid numGroups : Nat) :
    List Nat :=
  (List.range numGroups).filter
    (fun gid => (bus (alertsReadKey rid gid)).any (fun a => a.group_id == gid))

/-- `group_weight` of `coordinator.py` for a representative message: full
weight `m` when `valid_sigs >= ceil(m - E)`, else `valid_sigs`.  This
method exists in the source but is never called by `run_round`. -/
def group_weight (cfg : NBFTConfig) (valid_sigs : Nat) : Nat :=
  if cfg.m - cfg.E ≤ valid_sigs then cfg.m else valid_sigs

/-- An aggregate as decoded by the coordinator's polling loop
(`rep_id`, `value`, `valid_sigs` of the latest `nbft:inprep2:{gid}`
record). -/
structure AggRec where
  rep : String
  value : String
  valid_sigs : Nat
deriving DecidableEq, Repr

/-- Decoding step of the polling loop: the latest `inprep2` record of a
group is accepted only when its `rid` matches the current round. -/
def acceptAggregate (rid : Nat) (rec : RepAggMsg) : Option AggRec :=
  if rec.rid == rid then some ⟨rec.rep_id, rec.value, rec.valid_sigs⟩
  else none

/-- A record written to the bus by the coordinator.  The constructors cover
every record kind named by the specification for `run_round`; the source
only ever produces the first. -/
inductive BusRecord where
  | prePrepare1 (rid : Nat) (proposer value : String) (ts : Nat)
  | outPrepare (rid : Nat) (winner : String)
      (votes total threshold : Nat) (consensus : Bool)
  | commit (rid : Nat) (value : String) (votes : Nat)
  | prePrepare2 (rid : Nat) (value : String)
  | repVotesMap (rid : Nat) (tally : List (String × Nat))
  | decisionsMap (rid : Nat) (winner : String) (votes : Nat)
deriving DecidableEq, Repr

/-- `counts[val] += k` on an insertion-ordered association list
(`defaultdict(int)` semantics). -/
def bumpCount (acc : List (String × Nat)) (v : String) (k : Nat) :
    List (String × Nat) :=
  if acc.any (fun p => p.1 == v) then
    acc.map (fun p => if p.1 == v then (p.1, p.2 + k) else p)
  else acc ++ [(v, k)]

/-- The tally dictionary built by `run_round`: one increment per agreed
group value, keys in first-seen order. -/
def countsOf (vals : List String) : List (String × Nat) :=
  vals.foldl (fun acc v => bumpCount acc v 1) []

/-- `max(counts.items(), key=lambda kv: kv[1], default=("⊥", 0))`: Python's
`max` keeps the first element attaining the maximum key. -/
def argmaxFirst : List (String × Nat) → String × Nat
  | [] => ("⊥", 0)
  | x :: xs => xs.foldl (fun best p => if best.2 < p.2 then p else best) x

/-- The observable outcome of `run_round`: the bus writes it performed and
the decision quantities it computed (and logged). -/
structure RunRoundResult where
  writes : List (String × BusRecord)
  exclude : List Nat
  agreed : List String
  winner : String
  groupVotes : Nat
  thresholdGroups : Nat
  consensus : Bool
deriving DecidableEq, Repr

/-- `Coordinator.run_round(rid, value)` over the data it observed:
`aggregates` is the gid-keyed dictionary produced by the polling loop in
insertion order (each entry already rid-checked by `acceptAggregate`), and
`bus` holds the alert streams read by the exclusion sweep.  The body:
append one `PrePrepare1`, exclude alerted groups, give one group-vote to
the value of every included aggregate with `valid_sigs >= 2E + 1`, pick the
winner by maximal count (first seen wins ties, default `("⊥", 0)`), and
compare the winner's votes against `len(groups) - omega`.  No further bus
write occurs: the decision is only logged. -/
def run_round (cfg : NBFTConfig) (mod : MessagesModule) (numGroups : Nat)
    (primary : String) (rid : Nat) (value : String)
    (aggregates : List (Nat × AggRec)) (bus : String → List AlertMsg) :
    RunRoundResult :=
  let writes : List (String × BusRecord) :=
    [("nbft:preprepare1",
      BusRecord.prePrepare1 rid primary value mod.prePrepare1Ts)]
  let exclude := coordExclude bus rid numGroups
  let agreed := aggregates.foldl
    (fun acc p =>
      if p.1 ∈ exclude then acc
      else if 2 * cfg.E + 1 ≤ p.2.valid_sigs then acc ++ [p.2.value]
      else acc) []
  let wv := argmaxFirst (countsOf agreed)
  let thresholdGroups := numGroups - cfg.omega
  { writes := writes, exclude := exclude, agreed := agreed,
    winner := wv.1, groupVotes := wv.2, thresholdGroups := thresholdGroups,
    consensus := decide (thresholdGroups ≤ wv.2) }

/-! ## Specification-side models

These definitions follow the words of the specification (not the source);
they exist to compare the source's behaviour against the claimed one. -/

/-- Modelled from the spec: the weighted contribution of an included
aggregate, `m` votes when `valid_sigs ≥ ⌈m − E⌉` and `valid_sigs` votes
otherwise (`m − E` is an integer, so the ceiling is the identity). -/
def specContribution (m E v : Nat) : Nat := if m - E ≤ v then m else v

/-- Modelled from the spec: the weighted tally over the non-excluded
aggregates, value buckets in first-seen order. -/
def specTallies (m E : Nat) (exclude : List Nat)
    (aggs : List (Nat × AggRec)) : List (String × Nat) :=
  aggs.foldl
    (fun acc p =>
      if p.1 ∈ exclude then acc
      else bumpCount acc p.2.value (specContribution m E p.2.valid_sigs)) []

/-- Modelled from the spec: `total_votes = Σ tallies`. -/
def specTotalVotes (m E : Nat) (exclude : List Nat)
    (aggs : List (Nat × AggRec)) : Nat :=
  ((specTallies m E exclude aggs).map (fun p => p.2)).sum

/-- Modelled from the spec: `consensus = total_votes ≥ (R − ω) · m`. -/
def specConsensus (cfg : NBFTConfig) (exclude : List Nat)
    (aggs : List (Nat × AggRec)) : Bool :=
  decide ((cfg.R - cfg.omega) * cfg.m ≤ specTotalVotes cfg.m cfg.E exclude aggs)

/-- Modelled from the spec: `top_value` and `top_count` of the
representative's aggregation, the most frequent received value with ties
broken by first encounter. -/
def specTopPair (seen : List InPrepMsg) : String × Nat :=
  argmaxFirst (countsOf (seen.map (fun r => r.value)))

/-- Modelled from the spec: the published aggregate claimed by the
specification, `(top_value, top_count)` under quorum and `("⊥", 0)`
otherwise. -/
def specAggregate (E : Nat) (seen : List InPrepMsg) : String × Nat :=
  let tp := specTopPair seen
  if 2 * E + 1 ≤ tp.2 then (tp.1, tp.2) else ("⊥", 0)

/-- The distinct node ids with matching `group_id` among the records
visible to the collection loop (its first-50 window). -/
def matchingNids (records : List InPrepMsg) (gid : Nat) : List String :=
  (((records.take 50).filter (fun r => r.group_id == gid)).map
    (fun r => r.node_id)).dedup

/-! ## Concrete example data -/

/-- The `n=16, m=4` configuration of the round driver: `E=1`, `R=4`,
`ω=1`. -/
def cfg16 : NBFTConfig :=
  { n := 16, m := 4, view_number := 0, previous_hash := "genesis",
    master_ip := "10.0.0.1" }

/-- A small `n=5, m=2` configuration (`R = 3`) used by the partition
witness. -/
def cfg5 : NBFTConfig :=
  { n := 5, m := 2, view_number := 0, previous_hash := "genesis",
    master_ip := "10.0.0.1" }

/-- A module loaded with a constant clock (timestamps are irrelevant to the
decision logic). -/
def mod0 : MessagesModule := loadMessages (fun _ => 0)

/-- Four aggregates for one value with signature counts `3, 3, 2, 2`: the
weighted rule credits `4 + 4 + 2 + 2 = 12` votes, the source's group-count
rule credits two group-votes. -/
def aggsSplit : List (Nat × AggRec) :=
  [(0, ⟨"node-1", "BLOCK_HASH_ABC", 3⟩), (1, ⟨"node-5", "BLOCK_HASH_ABC", 3⟩),
   (2, ⟨"node-9", "BLOCK_HASH_ABC", 2⟩), (3, ⟨"node-13", "BLOCK_HASH_ABC", 2⟩)]

/-- Four full aggregates for one value (the all-honest scenario). -/
def aggsFull : List (Nat × AggRec) :=
  [(0, ⟨"node-1", "BLOCK_HASH_ABC", 4⟩), (1, ⟨"node-5", "BLOCK_HASH_ABC", 4⟩),
   (2, ⟨"node-9", "BLOCK_HASH_ABC", 4⟩), (3, ⟨"node-13", "BLOCK_HASH_ABC", 4⟩)]

/-- A group stream holding a single matching record. -/
def recsOne : List InPrepMsg := [⟨1, 0, "n1", "A", "sig:n1:1", 0⟩]

/-- A group stream holding three matching records with one common value. -/
def recsThree : List InPrepMsg :=
  [⟨1, 0, "n1", "A", "sig:n1:1", 0⟩, ⟨1, 0, "n2", "A", "sig:n2:1", 0⟩,
   ⟨1, 0, "n3", "A", "sig:n3:1", 0⟩]

/-- A group stream holding five records of five distinct node ids, all with
matching `group_id` and one common value: more distinct ids than `m = 4`. -/
def recsFive : List InPrepMsg :=
  [⟨1, 0, "n1", "A", "sig:n1:1", 0⟩, ⟨1, 0, "n2", "A", "sig:n2:1", 0⟩,
   ⟨1, 0, "n3", "A", "sig:n3:1", 0⟩, ⟨1, 0, "n4", "A", "sig:n4:1", 0⟩,
   ⟨1, 0, "n5", "A", "sig:n5:1", 0⟩]

/-- A dishonest node of group 0. -/
def dishonestNode : NodeActor :=
  { id := "node-3", group_id := 0, rep_id := "node-1", honest := false }

/-! ## General lemmas on the tally helpers -/

theorem argmaxFirst_fold_mem (ys : List (String × Nat)) :
    ∀ b, ys.foldl (fun best p => if best.2 < p.2 then p else best) b ∈ b :: ys := by
  induction ys with
  | nil => intro b; simp
  | cons y ys ih =>
    intro b
    simp only [List.foldl_cons]
    rcases List.mem_cons.mp (ih (if b.2 < y.2 then y else b)) with h1 | h1
    · rw [h1]
      by_cases hb : b.2 < y.2
      · simp [hb]
      · simp [hb]
    · exact List.mem_cons_of_mem _ (List.mem_cons_of_mem _ h1)

theorem argmaxFirst_fold_max (ys : List (String × Nat)) :
    ∀ b, ∀ p ∈ b :: ys,
      p.2 ≤ (ys.foldl (fun best p => if best.2 < p.2 then p else best) b).2 := by
  induction ys with
  | nil =>
    intro b p hp
    have h : p = b := by simpa using hp
    simp [h]
  | cons y ys ih =>
    intro b p hp
    simp only [List.foldl_cons]
    have hb2 : b.2 ≤ (if b.2 < y.2 then y else b).2 := by
      by_cases hb : b.2 < y.2
      · simp [hb]; omega
      · simp [hb]
    have hy2 : y.2 ≤ (if b.2 < y.2 then y else b).2 := by
      by_cases hb : b.2 < y.2
      · simp [hb]
      · simp [hb]; omega
    rcases List.mem_cons.mp hp with rfl | h1
    · exact le_trans hb2 (ih _ _ (List.mem_cons_self _ _))
    rcases List.mem_cons.mp h1 with rfl | h2
    · exact le_trans hy2 (ih _ _ (List.mem_cons_self _ _))
    · exact ih _ p (List.mem_cons_of_mem _ h2)

theorem argmaxFirst_mem (l : List (String × Nat)) (h : l ≠ []) :
    argmaxFirst l ∈ l := by
  match l with
  | x :: xs => exact argmaxFirst_fold_mem xs x

theorem argmaxFirst_max (l : List (String × Nat)) :
    ∀ p ∈ l, p.2 ≤ (argmaxFirst l).2 := by
  match l with
  | [] => simp
  | x :: xs => exact argmaxFirst_fold_max xs x

theorem bumpCount_spec (acc : List (String × Nat)) (base : List String)
    (a : String)
    (h1 : ∀ p ∈ acc, p.2 = List.count p.1 base)
    (h2 : ∀ v ∈ base, ∃ p ∈ acc, p.1 = v)
    (h3 : ∀ v, (∃ p ∈ acc, p.1 = v) → v ∈ base) :
    (∀ p ∈ bumpCount acc a 1, p.2 = List.count p.1 (base ++ [a])) ∧
    (∀ v ∈ base ++ [a], ∃ p ∈ bumpCount acc a 1, p.1 = v) ∧
    (∀ v, (∃ p ∈ bumpCount acc a 1, p.1 = v) → v ∈ base ++ [a]) := by
  by_cases hany : acc.any (fun p => p.1 == a) = true
  · have hbc : bumpCount acc a 1 =
        acc.map (fun p => if p.1 == a then (p.1, p.2 + 1) else p) := by
      simp [bumpCount, hany]
    refine ⟨?_, ?_, ?_⟩
    · intro p hp
      rw [hbc] at hp
      rcases List.mem_map.mp hp with ⟨q, hq, hqe⟩
      by_cases hqa : q.1 = a
      · rw [if_pos (beq_iff_eq.mpr hqa)] at hqe
        rw [← hqe]
        show q.2 + 1 = List.count q.1 (base ++ [a])
        have hc : List.count q.1 [a] = 1 := by simp [hqa]
        rw [List.count_append, hc, ← h1 q hq]
      · rw [if_neg (by simpa using hqa)] at hqe
        rw [← hqe]
        have h0 : List.count q.1 [a] = 0 := List.count_eq_zero.mpr (by simp [hqa])
        rw [List.count_append, h0, Nat.add_zero]
        exact h1 q hq
    · intro v hv
      rw [hbc]
      rcases List.mem_append.mp hv with hv1 | hv1
      · rcases h2 v hv1 with ⟨q, hq1, hq2⟩
        refine ⟨_, List.mem_map_of_mem _ hq1, ?_⟩
        by_cases hqa : (q.1 == a) = true
        · rw [if_pos hqa]
          exact hq2
        · rw [if_neg hqa]
          exact hq2
      · have hva : v = a := by simpa using hv1
        rcases List.any_eq_true.mp hany with ⟨q, hq1, hq2⟩
        refine ⟨_, List.mem_map_of_mem _ hq1, ?_⟩
        rw [if_pos hq2]
        exact (beq_iff_eq.mp hq2).trans hva.symm
    · rintro v ⟨p, hp1, hp2⟩
      rw [hbc] at hp1
      rcases List.mem_map.mp hp1 with ⟨q, hq, hqe⟩
      have hfst : q.1 = p.1 := by
        by_cases hqa : (q.1 == a) = true
        · rw [if_pos hqa] at hqe
          rw [← hqe]
        · rw [if_neg hqa] at hqe
          rw [← hqe]
      exact List.mem_append_left _ (h3 v ⟨q, hq, hfst.trans hp2⟩)
  · have hbc : bumpCount acc a 1 = acc ++ [(a, 1)] := by
      simp only [bumpCount]
      rw [if_neg hany]
    have hnb : a ∉ base := by
      intro hcon
      rcases h2 a hcon with ⟨q, hq1, hq2⟩
      exact hany (List.any_eq_true.mpr ⟨q, hq1, beq_iff_eq.mpr hq2⟩)
    refine ⟨?_, ?_, ?_⟩
    · intro p hp
      rw [hbc] at hp
      rcases List.mem_append.mp hp with hq | hq
      · have hne : p.1 ≠ a := by
          intro hcon
          exact hany (List.any_eq_true.mpr ⟨p, hq, beq_iff_eq.mpr hcon⟩)
        have h0 : List.count p.1 [a] = 0 := List.count_eq_zero.mpr (by simp [hne])
        rw [List.count_append, h0, Nat.add_zero]
        exact h1 p hq
      · have hpa : p = (a, 1) := by simpa using hq
        rw [hpa]
        show 1 = List.count a (base ++ [a])
        rw [List.count_append, List.count_eq_zero.mpr hnb]
        simp
    · intro v hv
      rw [hbc]
      rcases List.mem_append.mp hv with hv1 | hv1
      · rcases h2 v hv1 with ⟨q, hq1, hq2⟩
        exact ⟨q, List.mem_append_left _ hq1, hq2⟩
      · have hva : v = a := by simpa using hv1
        exact ⟨(a, 1), List.mem_append_right _ (by simp), hva.symm⟩
    · rintro v ⟨p, hp1, hp2⟩
      rw [hbc] at hp1
      rcases List.mem_append.mp hp1 with hq | hq
      · exact List.mem_append_left _ (h3 v ⟨p, hq, hp2⟩)
      · have hpa : p = (a, 1) := by simpa using hq
        rw [hpa] at hp2
        refine List.mem_append_right _ ?_
        rw [← hp2]
        simp

theorem countsOf_go (l : List String) :
    ∀ (base : List String) (acc : List (String × Nat)),
      (∀ p ∈ acc, p.2 = List.count p.1 base) →
      (∀ v ∈ base, ∃ p ∈ acc, p.1 = v) →
      (∀ v, (∃ p ∈ acc, p.1 = v) → v ∈ base) →
      (∀ p ∈ l.foldl (fun acc v => bumpCount acc v 1) acc,
          p.2 = List.count p.1 (base ++ l)) ∧
      (∀ v ∈ base ++ l,
          ∃ p ∈ l.foldl (fun acc v => bumpCount acc v 1) acc, p.1 = v) := by
  induction l with
  | nil =>
    intro base acc h1 h2 _
    constructor
    · simpa using h1
    · simpa using h2
  | cons a l ih =>
    intro base acc h1 h2 h3
    obtain ⟨s1, s2, s3⟩ := bumpCount_spec acc base a h1 h2 h3
    have key : ((base ++ [a]) ++ l) = base ++ a :: l := by simp
    have := ih (base ++ [a]) (bumpCount acc a 1) s1 s2 s3
    rw [key] at this
    exact ⟨this.1, this.2⟩

theorem countsOf_count (l : List String) :
    ∀ p ∈ countsOf l, p.2 = List.count p.1 l := by
  have h := countsOf_go l [] [] (by simp) (by simp) (by simp)
  simpa [countsOf] using h.1

theorem countsOf_complete (l : List String) :
    ∀ v ∈ l, ∃ p ∈ countsOf l, p.1 = v := by
  have h := countsOf_go l [] [] (by simp) (by simp) (by simp)
  simpa [countsOf] using h.2

theorem agreed_foldl_eq (E : Nat) (exclude : List Nat)
    (aggs : List (Nat × AggRec)) (acc : List String) :
    aggs.foldl
      (fun acc p =>
        if p.1 ∈ exclude then acc
        else if 2 * E + 1 ≤ p.2.valid_sigs then acc ++ [p.2.value]
        else acc) acc
    = acc ++ (aggs.filter
        (fun p => !(decide (p.1 ∈ exclude)) &&
          decide (2 * E + 1 ≤ p.2.valid_sigs))).map (fun p => p.2.value) := by
  induction aggs generalizing acc with
  | nil => simp
  | cons a l ih =>
    by_cases h1 : a.1 ∈ exclude
    · simp [List.foldl_cons, List.filter_cons, h1, ih]
    · by_cases h2 : 2 * E + 1 ≤ a.2.valid_sigs
      · simp [List.foldl_cons, List.filter_cons, h1, h2, ih]
      · simp [List.foldl_cons, List.filter_cons, h1, h2, ih]

theorem countsOf_ne_nil (a : String) (l : List String) (h : a ∈ l) :
    countsOf l ≠ [] := by
  rcases countsOf_complete l a h with ⟨p, hp, _⟩
  intro hcon
  rw [hcon] at hp
  simp at hp

theorem argmax_counts_count (l : List String) :
    (argmaxFirst (countsOf l)).2 = List.count (argmaxFirst (countsOf l)).1 l := by
  rcases l with _ | ⟨a, l0⟩
  · rfl
  · exact countsOf_count _ _ (argmaxFirst_mem _ (countsOf_ne_nil a _ (by simp)))

theorem argmax_counts_max (l : List String) (v : String) :
    List.count v l ≤ (argmaxFirst (countsOf l)).2 := by
  by_cases hv : v ∈ l
  · rcases countsOf_complete l v hv with ⟨p, hp, hpv⟩
    have h1 := argmaxFirst_max (countsOf l) p hp
    have h2 := countsOf_count l p hp
    rw [hpv] at h2
    omega
  · rw [List.count_eq_zero.mpr hv]
    exact Nat.zero_le _

theorem specTopPair_unanimous (seen : List InPrepMsg) (v : String)
    (h : seenValues seen = [v]) : specTopPair seen = (v, seen.length) := by
  have hall : ∀ x ∈ seen.map (fun r => r.value), x = v := by
    intro x hx
    have hd : x ∈ (seen.map (fun r => r.value)).dedup := List.mem_dedup.mpr hx
    rw [show (seen.map (fun r => r.value)).dedup = [v] from h] at hd
    simpa using hd
  have hlne : seen.map (fun r => r.value) ≠ [] := by
    intro hcon
    rw [seenValues, hcon] at h
    simp at h
  have hcount : List.count v (seen.map (fun r => r.value)) =
      (seen.map (fun r => r.value)).length :=
    List.count_eq_length.mpr (fun b hb => (hall b hb).symm)
  have h1 := argmax_counts_count (seen.map (fun r => r.value))
  have h2 := argmax_counts_max (seen.map (fun r => r.value)) v
  have hle := List.count_le_length
    (argmaxFirst (countsOf (seen.map (fun r => r.value)))).1
    (seen.map (fun r => r.value))
  have htop2 : (argmaxFirst (countsOf (seen.map (fun r => r.value)))).2 =
      (seen.map (fun r => r.value)).length := by omega
  have hmem : (argmaxFirst (countsOf (seen.map (fun r => r.value)))).1 ∈
      seen.map (fun r => r.value) := by
    refine List.count_pos_iff.mp ?_
    have hpos : 0 < (seen.map (fun r => r.value)).length :=
      List.length_pos.mpr hlne
    omega
  have htop1 := hall _ hmem
  show argmaxFirst (countsOf (seen.map (fun r => r.value))) = (v, seen.length)
  have hlen : (seen.map (fun r => r.value)).length = seen.length :=
    List.length_map _ _
  refine Prod.ext htop1 ?_
  rw [htop2, hlen]

/-! ## Claim theorems -/

/-- Claim C10: for each of the four message types, the `ts` of every record
constructed without an explicit `ts` argument equals the single default
fixed when `messages.py` was imported (the dataclass default `time.time()`
is evaluated once, at class definition): `ts` is independent of the
construction instant, any two such records of one type carry identical
timestamps, and the records appended by `in_prepare1` carry the import-time
`InPrepare` default. -/
theorem claim_C10_import_time_ts (clock : Nat → Nat) (now1 now2 : Nat)
    (rid1 rid2 gid1 gid2 vs1 vs2 : Nat) (nd : NodeActor)
    (p1 p2 v1 v2 s1 s2 rep1 rep2 sj1 sj2 nid1 nid2 re1 re2 ev1 ev2 : String) :
    (mkPrePrepare1At (loadMessages clock) now1 rid1 p1 v1).ts = clock 0 ∧
    (mkPrePrepare1At (loadMessages clock) now1 rid1 p1 v1).ts =
      (mkPrePrepare1At (loadMessages clock) now2 rid2 p2 v2).ts ∧
    (mkInPrepareAt (loadMessages clock) now1 rid1 gid1 nid1 v1 s1).ts = clock 1 ∧
    (mkInPrepareAt (loadMessages clock) now1 rid1 gid1 nid1 v1 s1).ts =
      (mkInPrepareAt (loadMessages clock) now2 rid2 gid2 nid2 v2 s2).ts ∧
    (mkRepAggregateAt (loadMessages clock) now1 rid1 gid1 rep1 v1 vs1 sj1).ts = clock 2 ∧
    (mkRepAggregateAt (loadMessages clock) now1 rid1 gid1 rep1 v1 vs1 sj1).ts =
      (mkRepAggregateAt (loadMessages clock) now2 rid2 gid2 rep2 v2 vs2 sj2).ts ∧
    (mkAlertAt (loadMessages clock) now1 rid1 gid1 nid1 re1 ev1).ts = clock 3 ∧
    (mkAlertAt (loadMessages clock) now1 rid1 gid1 nid1 re1 ev1).ts =
      (mkAlertAt (loadMessages clock) now2 rid2 gid2 nid2 re2 ev2).ts ∧
    (in_prepare1 (loadMessages clock) nd rid1 v1).2.ts = clock 1 :=
  ⟨rfl, rfl, rfl, rfl, rfl, rfl, rfl, rfl, rfl⟩

/-- Claim C6 counterexample: a node with `honest = false` appends an
`InPrepare` whose value is the proposed value itself, not the fabricated
payload `FAKE:{id}`. -/
theorem claim_C6_counterexample :
    dishonestNode.honest = false ∧
    (in_prepare1 mod0 dishonestNode 1 "BLOCK_HASH_ABC").2.value =
      "BLOCK_HASH_ABC" ∧
    (in_prepare1 mod0 dishonestNode 1 "BLOCK_HASH_ABC").2.value ≠
      "FAKE:" ++ dishonestNode.id := by
  refine ⟨rfl, rfl, by decide⟩

/-- Claim C6 (amended): `in_prepare1` never consults the `honest` flag: every
node, honest or dishonest, appends an `InPrepare` record carrying the
proposed value unchanged (with signature `sig:{id}:{rid}`), and the record
is identical whichever way the flag is set. -/
theorem claim_C6_in_prepare1_value (mod : MessagesModule) (nd : NodeActor)
    (rid : Nat) (value : String) :
    (in_prepare1 mod nd rid value).2.value = value ∧
    (in_prepare1 mod nd rid value).2.sig = nd.sign rid ∧
    in_prepare1 mod nd rid value =
      in_prepare1 mod { nd with honest := true } rid value ∧
    in_prepare1 mod nd rid value =
      in_prepare1 mod { nd with honest := false } rid value :=
  ⟨rfl, rfl, rfl, rfl⟩

/-- Claim C3 counterexample: a completed round that reaches consensus still
emits only the initial `PrePrepare1` record: no OutPrepare, Commit or
PrePrepare2 write occurs, and nothing is persisted. -/
theorem claim_C3_counterexample :
    (run_round cfg16 mod0 4 "node-1" 1 "BLOCK_HASH_ABC" aggsFull
      emptyAlertBus).consensus = true ∧
    (run_round cfg16 mod0 4 "node-1" 1 "BLOCK_HASH_ABC" aggsFull
      emptyAlertBus).writes =
      [("nbft:preprepare1",
        BusRecord.prePrepare1 1 "node-1" "BLOCK_HASH_ABC" 0)] ∧
    "nbft:outprepare" ∉ (run_round cfg16 mod0 4 "node-1" 1 "BLOCK_HASH_ABC"
      aggsFull emptyAlertBus).writes.map (fun w => w.1) ∧
    "nbft:commit" ∉ (run_round cfg16 mod0 4 "node-1" 1 "BLOCK_HASH_ABC"
      aggsFull emptyAlertBus).writes.map (fun w => w.1) ∧
    "nbft:preprepare2" ∉ (run_round cfg16 mod0 4 "node-1" 1 "BLOCK_HASH_ABC"
      aggsFull emptyAlertBus).writes.map (fun w => w.1) := by
  refine ⟨by decide, by decide, by decide, by decide, by decide⟩

/-- Claim C3 (amended): `run_round`'s only bus write, in every round and
whether or not consensus is reached, is the initial `PrePrepare1` record to
`nbft:preprepare1`: the tally map is not persisted and no OutPrepare,
Commit or PrePrepare2 record is emitted; the decision quantities are
computed and only logged. -/
theorem claim_C3_run_round_writes (cfg : NBFTConfig) (mod : MessagesModule)
    (numGroups : Nat) (primary : String) (rid : Nat) (value : String)
    (aggregates : List (Nat × AggRec)) (bus : String → List AlertMsg) :
    (run_round cfg mod numGroups primary rid value aggregates bus).writes =
      [("nbft:preprepare1",
        BusRecord.prePrepare1 rid primary value mod.prePrepare1Ts)] := rfl

/-- Claim C4: the representative appends its alerts to `nbft:alerts:{rid}`
while the coordinator's exclusion sweep reads `nbft:alerts:{rid}:{gid}`:
after the representative of group 0 emits a `weak_sig` alert for round 1,
the stream the coordinator reads is still empty and no group is excluded. -/
theorem claim_C4_alert_key_mismatch :
    alertAppendKey 1 ≠ alertsReadKey 1 0 ∧
    (repAlertWrites mod0 1 0 "node-2" ["weak_sig"] 0).map (fun w => w.1) =
      [alertAppendKey 1] ∧
    busAppendAlerts emptyAlertBus
      (repAlertWrites mod0 1 0 "node-2" ["weak_sig"] 0)
      (alertsReadKey 1 0) = [] ∧
    busAppendAlerts emptyAlertBus
      (repAlertWrites mod0 1 0 "node-2" ["weak_sig"] 0)
      (alertAppendKey 1) =
      [⟨1, 0, "node-2", "weak_sig", "valid_sigs=0", 0⟩] ∧
    coordExclude
      (busAppendAlerts emptyAlertBus
        (repAlertWrites mod0 1 0 "node-2" ["weak_sig"] 0)) 1 4 = [] := by
  refine ⟨by decide, by decide, by decide, by decide, by decide⟩

/-- Claim C1 counterexample: under the `n=16, m=4` configuration
(`E=1, R=4, ω=1`) with four included aggregates for one value carrying
`valid_sigs = 3, 3, 2, 2`, the claimed weighted rule yields
`total_votes = 4+4+2+2 = 12 ≥ (R−ω)·m = 12`, hence consensus; the source's
`run_round` instead counts the two groups with `valid_sigs ≥ 2E+1` against
the group threshold `4 − ω = 3` and reports no consensus. -/
theorem claim_C1_counterexample :
    specTotalVotes cfg16.m cfg16.E [] aggsSplit = 12 ∧
    (cfg16.R - cfg16.omega) * cfg16.m = 12 ∧
    specConsensus cfg16 [] aggsSplit = true ∧
    (run_round cfg16 mod0 4 "node-1" 1 "BLOCK_HASH_ABC" aggsSplit
      emptyAlertBus).exclude = [] ∧
    (run_round cfg16 mod0 4 "node-1" 1 "BLOCK_HASH_ABC" aggsSplit
      emptyAlertBus).groupVotes = 2 ∧
    (run_round cfg16 mod0 4 "node-1" 1 "BLOCK_HASH_ABC" aggsSplit
      emptyAlertBus).thresholdGroups = 3 ∧
    (run_round cfg16 mod0 4 "node-1" 1 "BLOCK_HASH_ABC" aggsSplit
      emptyAlertBus).consensus = false := by
  refine ⟨by decide, by decide, by decide, by decide, by decide, by decide,
    by decide⟩

/-- Claim C1 (amended): `run_round` performs a group-count tally, not a
weighted one: every non-excluded aggregate with `valid_sigs ≥ 2E+1`
contributes exactly one group-vote to its reported value and every other
aggregate contributes nothing; the winner is the argmax of the group-vote
counts (tie-break by first-seen value, defaulting to `("⊥", 0)` on an empty
tally); the threshold is `len(groups) − ω` groups; and consensus holds iff
the winner's group-vote count — not a vote total — reaches it. -/
theorem claim_C1_run_round_tally (cfg : NBFTConfig) (mod : MessagesModule)
    (numGroups : Nat) (primary : String) (rid : Nat) (value : String)
    (aggregates : List (Nat × AggRec)) (bus : String → List AlertMsg) :
    (run_round cfg mod numGroups primary rid value aggregates bus).agreed =
      (aggregates.filter (fun p =>
        !(decide (p.1 ∈ coordExclude bus rid numGroups)) &&
        decide (2 * cfg.E + 1 ≤ p.2.valid_sigs))).map (fun p => p.2.value) ∧
    (run_round cfg mod numGroups primary rid value aggregates bus).groupVotes =
      List.count
        (run_round cfg mod numGroups primary rid value aggregates bus).winner
        (run_round cfg mod numGroups primary rid value aggregates bus).agreed ∧
    (∀ v, List.count v
        (run_round cfg mod numGroups primary rid value aggregates bus).agreed ≤
      (run_round cfg mod numGroups primary rid value aggregates bus).groupVotes) ∧
    ((run_round cfg mod numGroups primary rid value aggregates bus).agreed = [] →
      (run_round cfg mod numGroups primary rid value aggregates bus).winner = "⊥" ∧
      (run_round cfg mod numGroups primary rid value aggregates bus).groupVotes = 0) ∧
    (run_round cfg mod numGroups primary rid value aggregates bus).consensus =
      decide (numGroups - cfg.omega ≤
        (run_round cfg mod numGroups primary rid value aggregates bus).groupVotes) := by
  have hA := agreed_foldl_eq cfg.E (coordExclude bus rid numGroups) aggregates []
  rw [List.nil_append] at hA
  refine ⟨?_, ?_, ?_, ?_, ?_⟩
  · exact hA
  · exact argmax_counts_count _
  · intro v
    exact argmax_counts_max _ v
  · intro h
    have h2 : argmaxFirst (countsOf
        ((run_round cfg mod numGroups primary rid value aggregates bus).agreed)) =
        ("⊥", 0) := by
      rw [h]
      rfl
    exact ⟨congrArg Prod.fst h2, congrArg Prod.snd h2⟩
  · rfl

/-- Claim C2 counterexample: with one received record of value `"A"` and
`E = 1` (quorum `2E+1 = 3`), the claimed quorum rule publishes `("⊥", 0)`,
but the source checks unanimity, not quorum, and publishes `("A", 1)`. -/
theorem claim_C2_counterexample :
    (in_prepare2_publish mod0 1 0 "n1" recsOne).value = "A" ∧
    (in_prepare2_publish mod0 1 0 "n1" recsOne).valid_sigs = 1 ∧
    specAggregate 1 (collectSeen recsOne 0) = ("⊥", 0) ∧
    ((in_prepare2_publish mod0 1 0 "n1" recsOne).value,
      (in_prepare2_publish mod0 1 0 "n1" recsOne).valid_sigs) ≠
      specAggregate 1 (collectSeen recsOne 0) := by
  refine ⟨by decide, by decide, by decide, by decide⟩

/-- Claim C2 (amended): the representative's aggregation gates on unanimity,
not on a quorum of the most frequent value: when the observed value set is
the singleton `{v}` the published aggregate is `(v, |seen|)` with no quorum
check; when no record was received it is `("⊥", 0)`; and when two or more
distinct values were observed, `valid_sigs = 0` while `value` is an element
of the observed value set (the Python set's iteration order is unspecified;
the value set is modelled as a duplicate-free list). -/
theorem claim_C2_aggregation (mod : MessagesModule) (rid gid : Nat)
    (repId : String) (records : List InPrepMsg) :
    (∀ v, seenValues (collectSeen records gid) = [v] →
      (in_prepare2_publish mod rid gid repId records).value = v ∧
      (in_prepare2_publish mod rid gid repId records).valid_sigs =
        (collectSeen records gid).length) ∧
    (collectSeen records gid = [] →
      (in_prepare2_publish mod rid gid repId records).value = "⊥" ∧
      (in_prepare2_publish mod rid gid repId records).valid_sigs = 0) ∧
    (2 ≤ (seenValues (collectSeen records gid)).length →
      (in_prepare2_publish mod rid gid repId records).valid_sigs = 0 ∧
      (in_prepare2_publish mod rid gid repId records).value ∈
        (collectSeen records gid).map (fun r => r.value)) := by
  refine ⟨?_, ?_, ?_⟩
  · intro v hv
    constructor
    · show aggValue (collectSeen records gid) = v
      rw [aggValue, hv]
      rfl
    · show aggValidSigs (collectSeen records gid) = _
      rw [aggValidSigs, if_pos]
      rw [aggConsistent, hv]
      rfl
  · intro h
    constructor
    · show aggValue (collectSeen records gid) = "⊥"
      rw [aggValue, h]
      rfl
    · show aggValidSigs (collectSeen records gid) = 0
      have hcons : aggConsistent (collectSeen records gid) = false := by
        rw [aggConsistent, h]
        rfl
      rw [aggValidSigs, hcons]
      simp
  · intro h2
    have hcons : aggConsistent (collectSeen records gid) = false := by
      rw [aggConsistent]
      simp only [beq_eq_false_iff_ne]
      omega
    constructor
    · show aggValidSigs (collectSeen records gid) = 0
      rw [aggValidSigs, if_neg]
      simp [hcons]
    · show aggValue (collectSeen records gid) ∈ _
      have hne : seenValues (collectSeen records gid) ≠ [] := by
        intro hcon
        rw [hcon] at h2
        simp at h2
      rcases hd : seenValues (collectSeen records gid) with _ | ⟨a, l0⟩
      · exact absurd hd hne
      · have hval : aggValue (collectSeen records gid) = a := by
          rw [aggValue, hd]
          rfl
        rw [hval]
        have : a ∈ seenValues (collectSeen records gid) := by
          rw [hd]
          simp
        exact List.mem_dedup.mp this

/-- Claim C2 witness: the amended unanimity branch at a concrete unanimous
stream of three records. -/
theorem claim_C2_witness :
    (in_prepare2_publish mod0 1 0 "n1" recsThree).value = "A" ∧
    (in_prepare2_publish mod0 1 0 "n1" recsThree).valid_sigs =
      (collectSeen recsThree 0).length :=
  (claim_C2_aggregation mod0 1 0 "n1" recsThree).1 "A" (by decide)

/-- Claim C5 counterexample: a unanimous collection of exactly `2E+1 = 3`
records (so `top_count = 2E+1`) does produce a `weak_sig` alert: the source
emits it whenever `valid_sigs ≤ 2E+1`, a non-strict bound. -/
theorem claim_C5_counterexample :
    (specTopPair (collectSeen recsThree 0)).2 = 2 * 1 + 1 ∧
    "weak_sig" ∈ alertReasons false 1 (collectSeen recsThree 0) ∧
    ¬ ((specTopPair (collectSeen recsThree 0)).2 < 2 * 1 + 1) := by
  refine ⟨by decide, by decide, by decide⟩

/-- Claim C5 (amended): `weak_sig` is emitted iff `valid_sigs ≤ 2E+1` (the
non-strict form), where `valid_sigs` is the record count under unanimity
and 0 otherwise; for a unanimous collection the bound reads
`top_count ≤ 2E+1`, so a group with exactly `2E+1` matching signatures does
self-alert. -/
theorem claim_C5_weak_sig (timedOut : Bool) (E gid : Nat)
    (records : List InPrepMsg) :
    ("weak_sig" ∈ alertReasons timedOut E (collectSeen records gid) ↔
      aggValidSigs (collectSeen records gid) ≤ 2 * E + 1) ∧
    (aggConsistent (collectSeen records gid) = true →
      ("weak_sig" ∈ alertReasons timedOut E (collectSeen records gid) ↔
        (specTopPair (collectSeen records gid)).2 ≤ 2 * E + 1)) := by
  have key : ("weak_sig" ∈ alertReasons timedOut E (collectSeen records gid)) ↔
      aggValidSigs (collectSeen records gid) ≤ 2 * E + 1 := by
    simp only [alertReasons, List.mem_append]
    split_ifs with h1 h2 h3 <;> simp_all
  refine ⟨key, ?_⟩
  intro hcons
  have h1 : (seenValues (collectSeen records gid)).length = 1 := by
    simpa [aggConsistent] using hcons
  rcases List.length_eq_one.mp h1 with ⟨v, hv⟩
  have htop := specTopPair_unanimous _ v hv
  have hvs : aggValidSigs (collectSeen records gid) =
      (collectSeen records gid).length := by
    rw [aggValidSigs, if_pos hcons]
  rw [htop, key, hvs]

/-- Claim C5 witness: the amended equivalence instantiated at the unanimous
three-record stream. -/
theorem claim_C5_witness :
    "weak_sig" ∈ alertReasons false 1 (collectSeen recsThree 0) ↔
      (specTopPair (collectSeen recsThree 0)).2 ≤ 2 * 1 + 1 :=
  (claim_C5_weak_sig false 1 0 recsThree).2 (by decide)

theorem collectSeen_go (rs : List InPrepMsg) (gid : Nat) :
    ∀ acc : List InPrepMsg,
      (acc.map (fun r => r.node_id)).Nodup →
      (∀ r ∈ acc, r.group_id = gid) →
      ((rs.foldl (collectStep gid) acc).map (fun r => r.node_id)).Nodup ∧
      (∀ r ∈ rs.foldl (collectStep gid) acc,
        r.group_id = gid ∧
        r.node_id ∈ (acc ++ rs.filter (fun s => s.group_id == gid)).map
          (fun s => s.node_id)) := by
  induction rs with
  | nil =>
    intro acc h1 h2
    refine ⟨by simpa using h1, ?_⟩
    intro r hr
    refine ⟨h2 r hr, ?_⟩
    simp only [List.filter_nil, List.append_nil]
    exact List.mem_map_of_mem _ hr
  | cons a rs ih =>
    intro acc h1 h2
    by_cases hgid : a.group_id ≠ gid
    · have hstep : List.foldl (collectStep gid) acc (a :: rs) =
          List.foldl (collectStep gid) acc rs := by
        simp only [List.foldl_cons, collectStep, if_pos hgid]
      have hfil : (a :: rs).filter (fun s => s.group_id == gid) =
          rs.filter (fun s => s.group_id == gid) := by
        rw [List.filter_cons]
        simp [hgid]
      rw [hstep, hfil]
      exact ih acc h1 h2
    · push_neg at hgid
      by_cases hdup : acc.any (fun s => s.node_id == a.node_id)
      · have hstep : List.foldl (collectStep gid) acc (a :: rs) =
            List.foldl (collectStep gid) acc rs := by
          simp only [List.foldl_cons, collectStep]
          rw [if_neg (by simp [hgid]), if_pos hdup]
        rw [hstep]
        obtain ⟨g1, g2⟩ := ih acc h1 h2
        refine ⟨g1, ?_⟩
        intro r hr
        obtain ⟨c1, c2⟩ := g2 r hr
        refine ⟨c1, ?_⟩
        rw [List.filter_cons, if_pos (by simp [hgid])]
        simp only [List.map_append] at c2 ⊢
        rcases List.mem_append.mp c2 with hm | hm
        · exact List.mem_append_left _ hm
        · refine List.mem_append_right _ ?_
          simp only [List.map_cons]
          exact List.mem_cons_of_mem _ hm
      · have hstep : List.foldl (collectStep gid) acc (a :: rs) =
            List.foldl (collectStep gid) (acc ++ [a]) rs := by
          simp only [List.foldl_cons, collectStep]
          rw [if_neg (by simp [hgid]), if_neg hdup]
        rw [hstep]
        have hnd : ((acc ++ [a]).map (fun r => r.node_id)).Nodup := by
          rw [List.map_append]
          refine List.Nodup.append h1 (by simp) ?_
          intro x hx hx2
          have hxa : x = a.node_id := by simpa using hx2
          rcases List.mem_map.mp hx with ⟨q, hq1, hq2⟩
          exact hdup (List.any_eq_true.mpr
            ⟨q, hq1, beq_iff_eq.mpr (hq2.trans hxa)⟩)
        have hmem : ∀ r ∈ acc ++ [a], r.group_id = gid := by
          intro r hr
          rcases List.mem_append.mp hr with hm | hm
          · exact h2 r hm
          · have hra : r = a := by simpa using hm
            rw [hra]
            exact hgid
        obtain ⟨g1, g2⟩ := ih (acc ++ [a]) hnd hmem
        refine ⟨g1, ?_⟩
        intro r hr
        obtain ⟨c1, c2⟩ := g2 r hr
        refine ⟨c1, ?_⟩
        rw [List.filter_cons, if_pos (by simp [hgid])]
        simp only [List.map_append, List.map_cons] at c2 ⊢
        rcases List.mem_append.mp c2 with hm | hm
        · rcases List.mem_append.mp hm with hm2 | hm2
          · exact List.mem_append_left _ hm2
          · refine List.mem_append_right _ ?_
            have hra : r.node_id = a.node_id := by simpa using hm2
            simp [hra]
        · refine List.mem_append_right _ ?_
          exact List.mem_cons_of_mem _ hm

theorem collectSeen_nodup (records : List InPrepMsg) (gid : Nat) :
    ((collectSeen records gid).map (fun r => r.node_id)).Nodup :=
  (collectSeen_go (records.take 50) gid [] (by simp) (by simp)).1

theorem collectSeen_nids_sub (records : List InPrepMsg) (gid : Nat) :
    ∀ r ∈ collectSeen records gid, r.node_id ∈ matchingNids records gid := by
  intro r hr
  have h := (collectSeen_go (records.take 50) gid [] (by simp) (by simp)).2 r hr
  rw [matchingNids, List.mem_dedup]
  simpa using h.2

theorem collectSeen_length_le (records : List InPrepMsg) (gid : Nat) :
    (collectSeen records gid).length ≤ (matchingNids records gid).length := by
  have hsub : (collectSeen records gid).map (fun r => r.node_id) ⊆
      matchingNids records gid := by
    intro x hx
    rcases List.mem_map.mp hx with ⟨r, hr, hrx⟩
    exact hrx ▸ collectSeen_nids_sub records gid r hr
  have hlen := List.Subperm.length_le
    (List.subperm_of_subset (collectSeen_nodup records gid) hsub)
  rw [List.length_map] at hlen
  exact hlen

/-- Claim C8 counterexample: a stream holding five distinct matching node
ids (more writers than the group size `m = 4`) drives `valid_sigs` to 5:
the batch loop processes a whole 50-record read without re-checking the
`m` bound, so `valid_sigs ≤ m` fails for adversarial stream contents. -/
theorem claim_C8_counterexample :
    cfg16.m = 4 ∧
    (in_prepare2_publish mod0 1 0 "n1" recsFive).valid_sigs = 5 ∧
    ¬ ((in_prepare2_publish mod0 1 0 "n1" recsFive).valid_sigs ≤ cfg16.m) := by
  refine ⟨by decide, by decide, by decide⟩

/-- Claim C8 (amended): the published `valid_sigs` is bounded by the number
of distinct node ids with matching `group_id` among the (first 50) records
of the group's `inprep1` stream, not by `m`; in particular `valid_sigs ≤ m`
holds whenever at most `m` distinct node ids write matching records — as in
every driver-orchestrated round, where exactly the `m` group members write
— but not for arbitrary stream contents. -/
theorem claim_C8_valid_sigs_bound (mod : MessagesModule) (rid gid : Nat)
    (repId : String) (records : List InPrepMsg) (m : Nat)
    (h : (matchingNids records gid).length ≤ m) :
    (in_prepare2_publish mod rid gid repId records).valid_sigs ≤ m := by
  have h1 : (in_prepare2_publish mod rid gid repId records).valid_sigs ≤
      (collectSeen records gid).length := by
    show aggValidSigs (collectSeen records gid) ≤ _
    rw [aggValidSigs]
    split_ifs
    · exact le_refl _
    · exact Nat.zero_le _
  exact le_trans (le_trans h1 (collectSeen_length_le records gid)) h

/-- Claim C8 witness: the amended bound at a three-writer stream with
`m = 4`. -/
theorem claim_C8_witness :
    (matchingNids recsThree 0).length ≤ 4 ∧
    (in_prepare2_publish mod0 1 0 "n1" recsThree).valid_sigs ≤ 4 :=
  ⟨by decide, claim_C8_valid_sigs_bound mod0 1 0 "n1" recsThree 4 (by decide)⟩

/-- Claim C1 witness: the amended empty-tally branch instantiated with no
aggregates. -/
theorem claim_C1_witness :
    (run_round cfg16 mod0 4 "node-1" 1 "BLOCK_HASH_ABC" [] emptyAlertBus).winner
      = "⊥" ∧
    (run_round cfg16 mod0 4 "node-1" 1 "BLOCK_HASH_ABC" []
      emptyAlertBus).groupVotes = 0 :=
  (claim_C1_run_round_tally cfg16 mod0 4 "node-1" 1 "BLOCK_HASH_ABC" []
    emptyAlertBus).2.2.2.1 (by decide)

theorem pairLe_iff (a b : Nat × String) :
    pairLe a b = true ↔ (a.1 < b.1 ∨ (a.1 = b.1 ∧ a.2 ≤ b.2)) := by
  simp [pairLe]

theorem pairLe_refl (a : Nat × String) : pairLe a a = true := by
  rw [pairLe_iff]
  exact Or.inr ⟨rfl, le_refl _⟩

theorem pairLe_trans (a b c : Nat × String) (h1 : pairLe a b = true)
    (h2 : pairLe b c = true) : pairLe a c = true := by
  rw [pairLe_iff] at h1 h2 ⊢
  rcases h1 with h1 | ⟨h1, h1s⟩ <;> rcases h2 with h2 | ⟨h2, h2s⟩
  · exact Or.inl (lt_trans h1 h2)
  · exact Or.inl (h2 ▸ h1)
  · exact Or.inl (h1 ▸ h2)
  · exact Or.inr ⟨h1.trans h2, le_trans h1s h2s⟩

theorem pairLe_total (a b : Nat × String) :
    (pairLe a b || pairLe b a) = true := by
  rcases Nat.lt_trichotomy a.1 b.1 with h | h | h
  · have : pairLe a b = true := (pairLe_iff a b).mpr (Or.inl h)
    simp [this]
  · rcases le_total a.2 b.2 with hs | hs
    · have : pairLe a b = true := (pairLe_iff a b).mpr (Or.inr ⟨h, hs⟩)
      simp [this]
    · have : pairLe b a = true := (pairLe_iff b a).mpr (Or.inr ⟨h.symm, hs⟩)
      simp [this]
  · have : pairLe b a = true := (pairLe_iff b a).mpr (Or.inl h)
    simp [this]

theorem ringNodes_sorted (ids : List String) :
    List.Pairwise (fun a b => pairLe a b = true) (ringNodes ids) :=
  List.sorted_mergeSort pairLe_trans pairLe_total _

theorem ringNodes_perm (ids : List String) :
    List.Perm (ringNodes ids) (ids.map (fun s => (h32 s, s))) :=
  List.mergeSort_perm _ _

theorem ringNodes_mem (ids : List String) (q : Nat × String) :
    q ∈ ringNodes ids ↔ ∃ s ∈ ids, q = (h32 s, s) := by
  rw [(ringNodes_perm ids).mem_iff, List.mem_map]
  constructor
  · rintro ⟨s, hs, rfl⟩
    exact ⟨s, hs, rfl⟩
  · rintro ⟨s, hs, rfl⟩
    exact ⟨s, hs, rfl⟩

theorem hashRing_next_some (ids : List String) (key : String)
    (q : Nat × String)
    (hf : (ringNodes ids).find? (fun p => decide (h32 key < p.1)) = some q) :
    HashRing.next ids key = some q.2 := by
  simp only [HashRing.next, hf]

theorem hashRing_next_none (ids : List String) (key : String)
    (hf : (ringNodes ids).find? (fun p => decide (h32 key < p.1)) = none) :
    HashRing.next ids key = (ringNodes ids).head?.map (fun p => p.2) := by
  simp only [HashRing.next, hf]

theorem sorted_find?_min (p : Nat × String → Bool) :
    ∀ l : List (Nat × String),
      List.Pairwise (fun a b => pairLe a b = true) l →
      ∀ x, l.find? p = some x → ∀ y ∈ l, p y = true → pairLe x y = true := by
  intro l
  induction l with
  | nil =>
    intro _ x hf
    simp at hf
  | cons a l ih =>
    intro hs x hf y hy hpy
    by_cases hpa : p a = true
    · rw [List.find?_cons_of_pos _ hpa] at hf
      have hxa : x = a := by simpa using hf.symm
      subst hxa
      rcases List.mem_cons.mp hy with rfl | hy2
      · exact pairLe_refl _
      · exact (List.pairwise_cons.mp hs).1 y hy2
    · rw [List.find?_cons_of_neg _ (by simpa using hpa)] at hf
      rcases List.mem_cons.mp hy with rfl | hy2
      · exact absurd hpy hpa
      · exact ih (List.pairwise_cons.mp hs).2 x hf y hy2 hpy

theorem sorted_head_min (a : Nat × String) (l : List (Nat × String))
    (hs : List.Pairwise (fun a b => pairLe a b = true) (a :: l)) :
    ∀ y ∈ a :: l, pairLe a y = true := by
  intro y hy
  rcases List.mem_cons.mp hy with rfl | hy2
  · exact pairLe_refl _
  · exact (List.pairwise_cons.mp hs).1 y hy2

/-- Claim C9: for a non-empty node set, `HashRing.next(key)` returns the
node whose 32-bit CRC-32 position is the smallest strictly greater than
`h32 key` — smallest in the lexicographic `(hash, id)` order, so ties on
equal hash fall to the sorted-id order — and wraps to the overall smallest
`(hash, id)` position when no position exceeds `h32 key`. -/
theorem claim_C9_hash_ring_next (ids : List String) (key : String)
    (hne : ids ≠ []) :
    ∃ nd ∈ ids, HashRing.next ids key = some nd ∧
      ((∃ x ∈ ids, h32 key < h32 x) →
        h32 key < h32 nd ∧
        ∀ x ∈ ids, h32 key < h32 x → pairLe (h32 nd, nd) (h32 x, x) = true) ∧
      ((∀ x ∈ ids, ¬ h32 key < h32 x) →
        ∀ x ∈ ids, pairLe (h32 nd, nd) (h32 x, x) = true) := by
  rcases hf : (ringNodes ids).find? (fun p => decide (h32 key < p.1)) with _ | q
  · have hnil : ringNodes ids ≠ [] := by
      intro hcon
      have := (ringNodes_perm ids).length_eq
      rw [hcon, List.length_map] at this
      exact hne (List.length_eq_zero.mp this.symm)
    rcases hh : ringNodes ids with _ | ⟨a, tl⟩
    · exact absurd hh hnil
    · have hmema : a ∈ ringNodes ids := by
        rw [hh]
        simp
      rcases (ringNodes_mem ids a).mp hmema with ⟨s, hs, rfl⟩
      refine ⟨s, hs, ?_, ?_, ?_⟩
      · rw [hashRing_next_none ids key hf, hh]
        rfl
      · rintro ⟨x, hx, hlt⟩
        exfalso
        have hxm : (h32 x, x) ∈ ringNodes ids :=
          (ringNodes_mem ids _).mpr ⟨x, hx, rfl⟩
        have := List.find?_eq_none.mp hf _ hxm
        simp at this
        omega
      · intro _ x hx
        have hxm : (h32 x, x) ∈ ringNodes ids :=
          (ringNodes_mem ids _).mpr ⟨x, hx, rfl⟩
        rw [hh] at hxm
        have hs2 := ringNodes_sorted ids
        rw [hh] at hs2
        exact sorted_head_min _ _ hs2 _ hxm
  · have hmemq : q ∈ ringNodes ids := List.mem_of_find?_eq_some hf
    rcases (ringNodes_mem ids q).mp hmemq with ⟨s, hs, rfl⟩
    have hps : h32 key < h32 s := by
      have := List.find?_some hf
      simpa using this
    refine ⟨s, hs, ?_, ?_, ?_⟩
    · exact hashRing_next_some ids key _ hf
    · intro _
      refine ⟨hps, ?_⟩
      intro x hx hlt
      have hxm : (h32 x, x) ∈ ringNodes ids :=
        (ringNodes_mem ids _).mpr ⟨x, hx, rfl⟩
      exact sorted_find?_min _ _ (ringNodes_sorted ids) _ hf _ hxm
        (by simpa using hlt)
    · intro hall
      exact absurd hps (hall s hs)

/-- Claim C9 witness: the ring lookup property at a concrete three-node
ring. -/
theorem claim_C9_witness :
    ∃ nd ∈ (["a", "b", "c"] : List String),
      HashRing.next ["a", "b", "c"] "k" = some nd ∧
      ((∃ x ∈ (["a", "b", "c"] : List String), h32 "k" < h32 x) →
        h32 "k" < h32 nd ∧
        ∀ x ∈ (["a", "b", "c"] : List String), h32 "k" < h32 x →
          pairLe (h32 nd, nd) (h32 x, x) = true) ∧
      ((∀ x ∈ (["a", "b", "c"] : List String), ¬ h32 "k" < h32 x) →
        ∀ x ∈ (["a", "b", "c"] : List String),
          pairLe (h32 nd, nd) (h32 x, x) = true) :=
  claim_C9_hash_ring_next ["a", "b", "c"] "k" (by decide)

theorem ringOrder_perm (ids : List String) :
    List.Perm (ringOrder ids) ids := by
  have h1 := (ringNodes_perm ids).map (fun p => p.2)
  rw [List.map_map] at h1
  have h2 : (ids.map ((fun p : Nat × String => p.2) ∘ fun s => (h32 s, s))) =
      ids := by
    simp [Function.comp_def]
  rw [h2] at h1
  exact h1

theorem ringOrder_length (ids : List String) :
    (ringOrder ids).length = ids.length :=
  (ringOrder_perm ids).length_eq

theorem ringWalk_mem (ids : List String) (hne : ids ≠ []) (key : String)
    (k : Nat) : ringWalk ids key k ∈ ids := by
  have hlen : 0 < (ringOrder ids).length := by
    rw [ringOrder_length]
    exact List.length_pos.mpr hne
  have hidx : (walkStart ids key + k) % (ringOrder ids).length <
      (ringOrder ids).length := Nat.mod_lt _ hlen
  have hval : ringWalk ids key k = (ringOrder ids).getD
      ((walkStart ids key + k) % (ringOrder ids).length) "" := rfl
  rw [hval, List.getD_eq_getElem _ _ hidx]
  exact (ringOrder_perm ids).mem_iff.mp (List.getElem_mem _)

theorem mod_coverage (c j L : Nat) (hL : 0 < L) (hj : j < L) :
    ∃ k, k < L ∧ (c + k) % L = j := by
  have hr : c % L < L := Nat.mod_lt _ hL
  refine ⟨(j + L - c % L) % L, Nat.mod_lt _ hL, ?_⟩
  have hk : (j + L - c % L) % L < L := Nat.mod_lt _ hL
  rw [Nat.add_mod, Nat.mod_eq_of_lt hk]
  rcases le_or_lt (c % L) j with hle | hlt
  · have h2 : j + L - c % L = (j - c % L) + L := by omega
    have h1 : (j + L - c % L) % L = j - c % L := by
      rw [h2, Nat.add_mod_right, Nat.mod_eq_of_lt (by omega)]
    rw [h1]
    have h3 : c % L + (j - c % L) = j := by omega
    rw [h3, Nat.mod_eq_of_lt hj]
  · have h1 : (j + L - c % L) % L = j + L - c % L :=
      Nat.mod_eq_of_lt (by omega)
    rw [h1]
    have h3 : c % L + (j + L - c % L) = j + L := by omega
    rw [h3, Nat.add_mod_right, Nat.mod_eq_of_lt hj]

theorem ringWalk_covers (ids : List String) (hne : ids ≠ []) (key : String) :
    ∀ (pos : Nat) (x : String), x ∈ ids →
      ∃ k, k < ids.length ∧ ringWalk ids key (pos + k) = x := by
  intro pos x hx
  have hlen : 0 < (ringOrder ids).length := by
    rw [ringOrder_length]
    exact List.length_pos.mpr hne
  have hmem : x ∈ ringOrder ids := (ringOrder_perm ids).mem_iff.mpr hx
  rcases List.mem_iff_getElem.mp hmem with ⟨j, hj, hval⟩
  rcases mod_coverage (walkStart ids key + pos) j _ hlen hj with ⟨k, hk, hmod⟩
  refine ⟨k, by rw [← ringOrder_length ids]; exact hk, ?_⟩
  have hassoc : walkStart ids key + (pos + k) =
      walkStart ids key + pos + k := by omega
  show (ringOrder ids).getD
    ((walkStart ids key + (pos + k)) % (ringOrder ids).length) "" = x
  rw [hassoc, hmod, List.getD_eq_getElem _ _ hj]
  exact hval

theorem findUnassigned_some (walk : Nat → String) (assigned : List String) :
    ∀ (fuel pos : Nat), (∃ k, k < fuel ∧ walk (pos + k) ∉ assigned) →
      ∃ nid pos1, findUnassigned walk assigned pos fuel = some (nid, pos1) ∧
        nid ∉ assigned ∧ (∃ j, nid = walk j) := by
  intro fuel
  induction fuel with
  | zero =>
    rintro pos ⟨k, hk, _⟩
    omega
  | succ f ih =>
    rintro pos ⟨k, hk, hkf⟩
    by_cases hw : walk pos ∈ assigned
    · have hk0 : k ≠ 0 := by
        intro h0
        rw [h0, Nat.add_zero] at hkf
        exact hkf hw
      have hex : ∃ k2, k2 < f ∧ walk (pos + 1 + k2) ∉ assigned := by
        refine ⟨k - 1, by omega, ?_⟩
        have heq : pos + 1 + (k - 1) = pos + k := by omega
        rw [heq]
        exact hkf
      obtain ⟨nid, pos1, h1, h2, h3⟩ := ih (pos + 1) hex
      refine ⟨nid, pos1, ?_, h2, h3⟩
      simp only [findUnassigned]
      rw [if_pos hw]
      exact h1
    · refine ⟨walk pos, pos + 1, ?_, hw, ⟨pos, rfl⟩⟩
      simp only [findUnassigned]
      rw [if_neg hw]

theorem fillGroup_spec (walk : Nat → String) (ids : List String)
    (hwm : ∀ q, walk q ∈ ids)
    (hcov : ∀ (pos : Nat) (x : String), x ∈ ids →
      ∃ k, k < ids.length ∧ walk (pos + k) = x)
    (hnd : ids.Nodup) :
    ∀ (slots : Nat) (assigned : List String) (pos : Nat),
      assigned.Nodup → (∀ x ∈ assigned, x ∈ ids) →
      assigned.length < ids.length →
      ∃ g a1 pos1,
        fillGroup walk ids.length ids.length slots assigned pos =
          some (g, a1, pos1) ∧
        a1 = assigned ++ g ∧
        (assigned ++ g).Nodup ∧
        (∀ x ∈ g, x ∈ ids) ∧
        (assigned ++ g).length = min (assigned.length + slots) ids.length := by
  intro slots
  induction slots with
  | zero =>
    intro assigned pos hand hsub hlt
    refine ⟨[], assigned, pos, rfl, by simp, by simpa using hand, by simp, ?_⟩
    simp only [List.append_nil, Nat.add_zero]
    exact (Nat.min_eq_left (le_of_lt hlt)).symm
  | succ s ih =>
    intro assigned pos hand hsub hlt
    have hex : ∃ x ∈ ids, x ∉ assigned := by
      by_contra hcon
      push_neg at hcon
      have hsub2 : ids ⊆ assigned := fun x hx => hcon x hx
      have := List.Subperm.length_le (List.subperm_of_subset hnd hsub2)
      omega
    obtain ⟨x, hx, hxa⟩ := hex
    obtain ⟨k, hk, hwk⟩ := hcov pos x hx
    obtain ⟨nid, pos1, hfind, hnida, hnidw⟩ :=
      findUnassigned_some walk assigned ids.length pos
        ⟨k, hk, by rw [hwk]; exact hxa⟩
    obtain ⟨j, hj⟩ := hnidw
    have hnid_ids : nid ∈ ids := by
      rw [hj]
      exact hwm j
    have hnd1 : (assigned ++ [nid]).Nodup := by
      refine List.Nodup.append hand (by simp) ?_
      intro y hy hy2
      have hynid : y = nid := by simpa using hy2
      rw [hynid] at hy
      exact hnida hy
    by_cases hstop : ids.length ≤ assigned.length + 1
    · refine ⟨[nid], assigned ++ [nid], pos1, ?_, rfl, hnd1, ?_, ?_⟩
      · simp only [fillGroup, hfind]
        rw [if_pos hstop]
      · intro y hy
        have hynid : y = nid := by simpa using hy
        rw [hynid]
        exact hnid_ids
      · rw [List.length_append, List.length_singleton,
          Nat.min_eq_right (by omega)]
        omega
    · push_neg at hstop
      obtain ⟨g2, a2, pos2, hrec, ha2, hnd2, hmem2, hlen2⟩ :=
        ih (assigned ++ [nid]) pos1 hnd1
          (by
            intro y hy
            rcases List.mem_append.mp hy with hm | hm
            · exact hsub y hm
            · have hynid : y = nid := by simpa using hm
              rw [hynid]
              exact hnid_ids)
          (by
            rw [List.length_append, List.length_singleton]
            omega)
      refine ⟨nid :: g2, a2, pos2, ?_, ?_, ?_, ?_, ?_⟩
      · simp only [fillGroup, hfind]
        rw [if_neg (by omega), hrec]
      · rw [ha2, List.append_assoc]
        rfl
      · have heq : assigned ++ nid :: g2 = (assigned ++ [nid]) ++ g2 := by
          rw [List.append_assoc]
          rfl
        rw [heq]
        exact hnd2
      · intro y hy
        rcases List.mem_cons.mp hy with rfl | hm
        · exact hnid_ids
        · exact hmem2 y hm
      · have heq : assigned ++ nid :: g2 = (assigned ++ [nid]) ++ g2 := by
          rw [List.append_assoc]
          rfl
        rw [heq, hlen2]
        have harith : (assigned ++ [nid]).length + s =
            assigned.length + (s + 1) := by
          rw [List.length_append, List.length_singleton]
          omega
        rw [harith]

theorem fillGroups_succ_eq (walk : Nat → String) (fuel n m r : Nat)
    (assigned : List String) (pos : Nat) :
    fillGroups walk fuel n m (r + 1) assigned pos =
      match fillGroup walk fuel n m assigned pos with
      | none => none
      | some (g, a1, pos1) =>
        match fillGroups walk fuel n m r a1 pos1 with
        | none => none
        | some (gs, a2, pos2) => some (g :: gs, a2, pos2) := rfl

theorem fillGroups_spec (walk : Nat → String) (ids : List String) (m : Nat)
    (hwm : ∀ q, walk q ∈ ids)
    (hcov : ∀ (pos : Nat) (x : String), x ∈ ids →
      ∃ k, k < ids.length ∧ walk (pos + k) = x)
    (hnd : ids.Nodup) :
    ∀ (r : Nat) (assigned : List String) (pos : Nat),
      assigned.Nodup → (∀ x ∈ assigned, x ∈ ids) →
      assigned.length + (r - 1) * m < ids.length →
      ids.length ≤ assigned.length + r * m →
      1 ≤ r →
      ∃ gs a1 pos1,
        fillGroups walk ids.length ids.length m r assigned pos =
          some (gs, a1, pos1) ∧
        a1 = assigned ++ gs.flatten ∧
        (assigned ++ gs.flatten).Nodup ∧
        (∀ x ∈ gs.flatten, x ∈ ids) ∧
        gs.length = r ∧
        (∀ i, i < r → (gs.getD i []).length =
          if i + 1 < r then m
          else ids.length - (assigned.length + (r - 1) * m)) ∧
        (assigned ++ gs.flatten).length = ids.length := by
  intro r
  induction r with
  | zero =>
    intro assigned pos _ _ _ _ hr1
    omega
  | succ r ih =>
    intro assigned pos hand hsub hentry hcap _
    by_cases hr0 : r = 0
    · subst hr0
      have hentry0 : assigned.length < ids.length := by simpa using hentry
      have hcap0 : ids.length ≤ assigned.length + m := by simpa using hcap
      obtain ⟨g, a1, pos1, hfg, hga, hgnd, hgmem, hglen⟩ :=
        fillGroup_spec walk ids hwm hcov hnd m assigned pos hand hsub hentry0
      rw [List.length_append, Nat.min_eq_right (by omega)] at hglen
      have hfl : ([g] : List (List String)).flatten = g := by simp
      refine ⟨[g], a1, pos1, ?_, ?_, ?_, ?_, rfl, ?_, ?_⟩
      · simp only [fillGroups, hfg]
      · rw [hfl]
        exact hga
      · rw [hfl]
        exact hgnd
      · rw [hfl]
        exact hgmem
      · intro i hi
        have hi0 : i = 0 := by omega
        subst hi0
        rw [if_neg (by omega), List.getD_cons_zero]
        omega
      · rw [hfl, List.length_append]
        omega
    · obtain ⟨r2, rfl⟩ : ∃ r2, r = r2 + 1 := ⟨r - 1, by omega⟩
      have hsm1 : (r2 + 1) * m = r2 * m + m := Nat.succ_mul _ _
      have hsm2 : (r2 + 2) * m = r2 * m + m + m := by
        rw [Nat.succ_mul, Nat.succ_mul]
      have e1 : r2 + 1 + 1 - 1 = r2 + 1 := rfl
      have hentry1 : assigned.length + (r2 * m + m) < ids.length := by
        have h0 := hentry
        rw [e1, hsm1] at h0
        exact h0
      have hcap1 : ids.length ≤ assigned.length + (r2 * m + m + m) := by
        have h0 := hcap
        rw [show (r2 + 1 + 1) * m = r2 * m + m + m from by
          rw [Nat.succ_mul, Nat.succ_mul]] at h0
        exact h0
      have hlt : assigned.length < ids.length := by omega
      obtain ⟨g, a1, pos1, hfg, hga, hgnd, hgmem, hglen⟩ :=
        fillGroup_spec walk ids hwm hcov hnd m assigned pos hand hsub hlt
      rw [List.length_append, Nat.min_eq_left (by omega)] at hglen
      have hglen2 : g.length = m := by omega
      obtain ⟨gs2, a2, pos2, hrec, ha2, hnd2, hmem2, hlen2, hidx2, htot2⟩ :=
        ih (assigned ++ g) pos1 hgnd
          (by
            intro y hy
            rcases List.mem_append.mp hy with hm2 | hm2
            · exact hsub y hm2
            · exact hgmem y hm2)
          (by
            rw [List.length_append, hglen2,
              show r2 + 1 - 1 = r2 from rfl]
            omega)
          (by
            rw [List.length_append, hglen2, hsm1]
            omega)
          (by omega)
      have hflc : ((g :: gs2).flatten : List String) = g ++ gs2.flatten := by
        simp
      refine ⟨g :: gs2, a2, pos2, ?_, ?_, ?_, ?_, ?_, ?_, ?_⟩
      · rw [fillGroups_succ_eq]
        simp only [hfg]
        rw [hga, hrec]
      · rw [ha2, hflc, List.append_assoc]
      · rw [hflc, ← List.append_assoc]
        exact hnd2
      · intro y hy
        rw [hflc] at hy
        rcases List.mem_append.mp hy with hm2 | hm2
        · exact hgmem y hm2
        · exact hmem2 y hm2
      · simp [hlen2]
      · intro i hi
        cases i with
        | zero =>
          rw [if_pos (by omega), List.getD_cons_zero]
          exact hglen2
        | succ i2 =>
          rw [List.getD_cons_succ]
          have hi2 : i2 < r2 + 1 := by omega
          have hval := hidx2 i2 hi2
          by_cases hcase : i2 + 1 < r2 + 1
          · rw [if_pos (by omega)]
            rw [if_pos hcase] at hval
            exact hval
          · rw [if_neg (by omega)]
            rw [if_neg hcase] at hval
            rw [hval, List.length_append, hglen2,
              show r2 + 1 - 1 = r2 from rfl,
              show r2 + 1 + 1 - 1 = r2 + 1 from rfl, hsm1]
            omega
      · rw [hflc, ← List.append_assoc]
        exact htot2

theorem ceil_facts (n m : Nat) (hn : 1 ≤ n) (hm : 1 ≤ m) :
    1 ≤ (n + m - 1) / m ∧
    n ≤ ((n + m - 1) / m) * m ∧
    ((n + m - 1) / m - 1) * m < n := by
  have hdm := Nat.div_add_mod (n + m - 1) m
  have hmod : (n + m - 1) % m < m := Nat.mod_lt _ (by omega)
  have hcomm : ((n + m - 1) / m) * m = m * ((n + m - 1) / m) :=
    Nat.mul_comm _ _
  have hpos : 1 ≤ (n + m - 1) / m :=
    (Nat.one_le_div_iff (by omega)).mpr (by omega)
  have hsub : ((n + m - 1) / m - 1) * m = ((n + m - 1) / m) * m - 1 * m :=
    Nat.sub_mul _ _ _
  rw [Nat.one_mul] at hsub
  exact ⟨hpos, by omega, by omega⟩

/-- Claim C7: for every non-empty list of distinct node ids and every
configuration with `n = len(node_ids)` and `m ≥ 1`, `assign_groups`
terminates with `R` groups that are pairwise disjoint, whose union is the
input node set, whose first `R − 1` groups each hold exactly `m` ids, and
whose last group holds between 1 and `m` ids. -/
theorem claim_C7_assign_groups (ids : List String) (cfg : NBFTConfig)
    (hnd : ids.Nodup) (hne : ids ≠ []) (hn : cfg.n = ids.length)
    (hm : 1 ≤ cfg.m) :
    ∃ gs, assign_groups ids cfg = some gs ∧
      gs.length = cfg.R ∧
      List.Pairwise List.Disjoint gs ∧
      (∀ x, x ∈ gs.flatten ↔ x ∈ ids) ∧
      (∀ i, i + 1 < gs.length → (gs.getD i []).length = cfg.m) ∧
      1 ≤ (gs.getD (gs.length - 1) []).length ∧
      (gs.getD (gs.length - 1) []).length ≤ cfg.m := by
  have hone : 1 ≤ ids.length := by
    rcases ids with _ | _
    · exact absurd rfl hne
    · simp
  have hReq : cfg.R = (ids.length + cfg.m - 1) / cfg.m := by
    show (cfg.n + cfg.m - 1) / cfg.m = _
    rw [hn]
  obtain ⟨hR1, hcapR, hentryR⟩ := ceil_facts ids.length cfg.m hone hm
  have hR1c : 1 ≤ cfg.R := by
    rw [hReq]
    exact hR1
  have hcapRc : ids.length ≤ cfg.R * cfg.m := by
    rw [hReq]
    exact hcapR
  have hentryRc : (cfg.R - 1) * cfg.m < ids.length := by
    rw [hReq]
    exact hentryR
  have hsmR : (cfg.R - 1) * cfg.m = cfg.R * cfg.m - 1 * cfg.m :=
    Nat.sub_mul _ _ _
  rw [Nat.one_mul] at hsmR
  obtain ⟨gs0, a1, pos1, hfg, hga, hgnd, hgmem, hglen, hidx, htot⟩ :=
    fillGroups_spec
      (ringWalk ids (toString cfg.view_number ++ "_" ++ toString ids.length))
      ids cfg.m
      (fun q => ringWalk_mem ids hne _ q)
      (ringWalk_covers ids hne _)
      hnd cfg.R [] 0 (by simp) (by simp)
      (by simpa using hentryRc)
      (by simpa using hcapRc)
      hR1c
  simp only [List.nil_append, List.length_nil, Nat.zero_add] at hga hgnd hgmem htot hidx
  have hassign : assign_groups ids cfg =
      some (gs0.filter (fun g => !g.isEmpty)) := by
    simp only [assign_groups, hfg]
  have hfilter : gs0.filter (fun g => !g.isEmpty) = gs0 := by
    rw [List.filter_eq_self]
    intro g hg
    rcases List.mem_iff_getElem.mp hg with ⟨i, hi, hgi⟩
    have hival := hidx i (by omega)
    rw [List.getD_eq_getElem _ _ hi, hgi] at hival
    have hpos : 1 ≤ g.length := by
      by_cases hc : i + 1 < cfg.R
      · rw [if_pos hc] at hival
        omega
      · rw [if_neg hc] at hival
        omega
    have hgne : g ≠ [] := by
      intro hcon
      rw [hcon] at hpos
      simp at hpos
    simp [List.isEmpty_iff, hgne]
  rw [hfilter] at hassign
  have hfnd : gs0.flatten.Nodup := hgnd
  have hperm : List.Perm gs0.flatten ids := by
    refine List.Subperm.perm_of_length_le
      (List.subperm_of_subset hfnd (fun x hx => hgmem x hx)) ?_
    omega
  refine ⟨gs0, hassign, hglen, (List.nodup_flatten.mp hfnd).2,
    fun x => hperm.mem_iff, ?_, ?_, ?_⟩
  · intro i hi
    have hival := hidx i (by omega)
    rw [if_pos (by omega)] at hival
    exact hival
  · have hival := hidx (cfg.R - 1) (by omega)
    rw [if_neg (by omega)] at hival
    rw [hglen, hival]
    omega
  · have hival := hidx (cfg.R - 1) (by omega)
    rw [if_neg (by omega)] at hival
    rw [hglen, hival]
    omega

/-- Claim C7 witness: the partition property at five distinct ids with
`n = 5`, `m = 2` (so `R = 3`: two full groups and a final singleton). -/
theorem claim_C7_witness :
    (["a", "b", "c", "d", "e"] : List String).Nodup ∧
    ∃ gs, assign_groups ["a", "b", "c", "d", "e"] cfg5 = some gs ∧
      gs.length = cfg5.R ∧
      List.Pairwise List.Disjoint gs ∧
      (∀ x, x ∈ gs.flatten ↔ x ∈ (["a", "b", "c", "d", "e"] : List String)) ∧
      (∀ i, i + 1 < gs.length → (gs.getD i []).length = cfg5.m) ∧
      1 ≤ (gs.getD (gs.length - 1) []).length ∧
      (gs.getD (gs.length - 1) []).length ≤ cfg5.m :=
  ⟨by decide, claim_C7_assign_groups ["a", "b", "c", "d", "e"] cfg5
    (by decide) (by decide) (by decide) (by decide)⟩
